import Mathlib

/-!
Verification of the frame-repository and DBC table layer of the j1939logger
repository (src/packet_repo.rs and src/dbc_table.rs), as a shallow embedding.

Modelling conventions:
* Rust `Duration` values are total nanosecond counts (`Nat`); `Duration::MAX`
  is the constant `durationMAX` below, and the Rust type invariant that every
  duration is at most `Duration::MAX` appears as an explicit hypothesis where
  a claim needs it.
* `J1939Packet` (from the external can_adapter crate) is reduced to the fields
  the repository code reads: `id` (u32), `time : Option` of a duration, and
  the raw payload bytes.  `p.time().unwrap_or_default()` becomes `tsOf`.
* The `HashMap` index of `PacketRepo` is modelled as a total function from
  keys to `Option` of a packet group; the Rust code never iterates the map,
  so the function view is faithful.
* Rust panics (`expect`, `panic!` spelled out in the source, and slice-range
  violations) are modelled with `Except String`: the `error` constructor is
  the panic.
* Signal decoding (`canparse`'s `parse_message`) and packet `Display` are
  external-crate code; decoding is threaded through as an opaque function
  argument `dec`, and the packet rendering is an explicit simple function,
  since no verified property depends on their internals.
-/

/-- Rust `Duration::MAX` in nanoseconds: `u64::MAX` seconds plus 999999999 ns. -/
def durationMAX : Nat := (2 ^ 64 - 1) * 1000000000 + 999999999

/-- One bus frame, from can_adapter's J1939Packet: the fields read by this
repository are the 29-bit (stored as u32) identifier, the optional capture
timestamp and the payload bytes. -/
structure J1939Packet where
  id : Nat
  time : Option Nat
  payload : List Nat
deriving DecidableEq, Repr, Inhabited

/-- Effective timestamp used throughout dbc_table.rs:
`p.time().unwrap_or_default()`, i.e. a missing timestamp counts as zero. -/
def tsOf (p : J1939Packet) : Nat := p.time.getD 0

/-- The 26-bit normalized identifier used as index key: `id & 0x3FFFFFF`
(packet_repo.rs line 16, dbc_table.rs lines 53, 66, 77, 187). -/
def normId (id : Nat) : Nat := id &&& 0x3FFFFFF

/-- The frame repository (packet_repo.rs): the chronological list of all
packets plus the per-normalized-identifier index.  The Rust `HashMap` is
modelled as a total function to `Option`; the code only ever reads it
pointwise through `get_for`. -/
structure PacketRepo where
  packets : List J1939Packet
  map : Nat → Option (List J1939Packet)

/-- The `Default` instance used to create the repository: both structures
empty. -/
def PacketRepo.empty : PacketRepo :=
  { packets := [], map := fun _ => none }

/-- PacketRepo::push (packet_repo.rs lines 13-19): append to `packets`, and
append to the group keyed by the normalized id, creating it if absent. -/
def PacketRepo.push (r : PacketRepo) (p : J1939Packet) : PacketRepo :=
  { packets := r.packets ++ [p]
    map := fun k =>
      if k = normId p.id then some ((r.map k).getD [] ++ [p]) else r.map k }

/-- PacketRepo::clear (packet_repo.rs lines 20-23): empty both structures. -/
def PacketRepo.clear (_ : PacketRepo) : PacketRepo := PacketRepo.empty

/-- PacketRepo::get_for (packet_repo.rs lines 24-26). -/
def PacketRepo.get_for (r : PacketRepo) (id : Nat) : Option (List J1939Packet) :=
  r.map id

/-- PacketRepo::last_time (packet_repo.rs lines 27-29):
`packets.last().and_then(time).unwrap_or_default()`. -/
def PacketRepo.last_time (r : PacketRepo) : Nat :=
  (r.packets.getLast?.bind J1939Packet.time).getD 0

/-- PacketRepo::first_time (packet_repo.rs lines 30-32). -/
def PacketRepo.first_time (r : PacketRepo) : Nat :=
  (r.packets.head?.bind J1939Packet.time).getD 0

/-- Folding a sequence of pushes over a repository, modelling the ingestion
thread's repeated `push` calls. -/
def pushAll (r : PacketRepo) (ps : List J1939Packet) : PacketRepo :=
  ps.foldl PacketRepo.push r

/-- The representation invariant of `PacketRepo`: every group that is present
is non-empty, holds only frames whose normalized id is the group key, and
all of its frames also occur in the global chronological list. -/
def PacketRepo.Inv (r : PacketRepo) : Prop :=
  ∀ k l, r.map k = some l →
    l ≠ [] ∧ ∀ p ∈ l, normId p.id = k ∧ p ∈ r.packets

/-! Basic facts about the repository operations. -/

theorem get_for_push (r : PacketRepo) (p : J1939Packet) (k : Nat) :
    (r.push p).get_for k =
      if k = normId p.id then some ((r.get_for k).getD [] ++ [p])
      else r.get_for k := rfl

theorem get_for_pushAll_isSome (ps : List J1939Packet) (r : PacketRepo) (k : Nat) :
    ((pushAll r ps).get_for k).isSome
      ↔ (r.get_for k).isSome ∨ ∃ p ∈ ps, normId p.id = k := by
  induction ps generalizing r with
  | nil => simp [pushAll]
  | cons p ps ih =>
    show ((pushAll (r.push p) ps).get_for k).isSome ↔ _
    rw [ih]
    by_cases h : k = normId p.id
    · subst h
      simp [get_for_push]
    · simp only [get_for_push, if_neg h, List.mem_cons]
      constructor
      · rintro (hs | hex)
        · exact Or.inl hs
        · exact Or.inr ⟨_, Or.inr hex.choose_spec.1, hex.choose_spec.2⟩
      · rintro (hs | ⟨q, hq | hq, hk⟩)
        · exact Or.inl hs
        · exact absurd hk.symm (by simpa [hq] using h)
        · exact Or.inr ⟨q, hq, hk⟩

/-- Sample packet used by concrete witnesses. -/
def pkt1 : J1939Packet := ⟨0x18FEF100, some 1000000000, [100, 0, 0, 0, 0, 0, 0, 0]⟩

/-- Sample packet without a timestamp, used by concrete witnesses. -/
def pktNoTime : J1939Packet := ⟨0x18FEF100, none, [1, 2, 3]⟩

/-- C5: push appends the frame to the global chronological list and to the
group keyed by the 26-bit normalized identifier (creating it if absent,
leaving every other key untouched), and a repository built by pushes after a
clear has a group under key k exactly when some pushed frame normalizes
to k. -/
theorem c5_push_and_get_for_exact (r : PacketRepo) (f : J1939Packet) (k : Nat)
    (ps : List J1939Packet) :
    (r.push f).packets = r.packets ++ [f] ∧
    (r.push f).get_for (normId f.id) = some ((r.get_for (normId f.id)).getD [] ++ [f]) ∧
    (k ≠ normId f.id → (r.push f).get_for k = r.get_for k) ∧
    (((pushAll r.clear ps).get_for k).isSome ↔ ∃ p ∈ ps, normId p.id = k) := by
  refine ⟨rfl, by simp [get_for_push], fun h => by simp [get_for_push, h], ?_⟩
  rw [get_for_pushAll_isSome]
  simp [PacketRepo.clear, PacketRepo.empty, PacketRepo.get_for]

/-- Witness for C5 at a concrete input: pushing `pkt1` into the empty
repository creates exactly its normalized group, leaves key 7 untouched,
and the push history determines which keys are present. -/
theorem c5_witness :
    ((PacketRepo.empty.push pkt1).get_for (normId pkt1.id) = some [pkt1]) ∧
    ((PacketRepo.empty.push pkt1).get_for 7 = PacketRepo.empty.get_for 7) ∧
    ((pushAll PacketRepo.empty.clear [pkt1]).get_for (normId pkt1.id)).isSome := by
  have h := c5_push_and_get_for_exact PacketRepo.empty pkt1 (normId pkt1.id) [pkt1]
  have h7 := c5_push_and_get_for_exact PacketRepo.empty pkt1 7 [pkt1]
  refine ⟨by rw [h.2.1]; rfl, h7.2.2.1 (by decide), h.2.2.2.mpr ⟨pkt1, by simp⟩⟩

/-- C6: clear resets the repository to the empty state: every group query
returns none and both time bounds return the zero duration.  (All repository
operations are total Lean functions, so none of them can fail.) -/
theorem c6_clear_resets (r : PacketRepo) (k : Nat) :
    (r.clear).get_for k = none ∧ (r.clear).first_time = 0 ∧ (r.clear).last_time = 0 :=
  ⟨rfl, rfl, rfl⟩

/-- C8: the representation invariant (groups are non-empty, hold only frames
whose normalized id is the group key, and only frames present in the global
list) holds for the empty repository and is preserved by push and clear. -/
theorem c8_inv_preserved (r : PacketRepo) (f : J1939Packet) :
    PacketRepo.Inv PacketRepo.empty ∧
    (r.Inv → (r.push f).Inv) ∧
    (r.Inv → r.clear.Inv) := by
  unfold PacketRepo.Inv
  refine ⟨?_, ?_, ?_⟩
  · intro k l h
    simp [PacketRepo.empty] at h
  · intro hInv k l hl
    simp only [PacketRepo.push] at hl ⊢
    by_cases hk : k = normId f.id
    · rw [if_pos hk] at hl
      cases hl
      constructor
      · simp
      · intro p hp
        rcases List.mem_append.1 hp with hp | hp
        · cases hm : r.map k with
          | none => rw [hm] at hp; cases hp
          | some g =>
            rw [hm] at hp
            rcases hInv k g hm with ⟨-, hall⟩
            rcases hall p hp with ⟨h1, h2⟩
            exact ⟨h1, List.mem_append_left _ h2⟩
        · rcases List.mem_singleton.1 hp with rfl
          exact ⟨hk.symm, List.mem_append_right _ (by simp)⟩
    · rw [if_neg hk] at hl
      rcases hInv k l hl with ⟨h1, h2⟩
      refine ⟨h1, fun p hp => ?_⟩
      rcases h2 p hp with ⟨ha, hb⟩
      exact ⟨ha, List.mem_append_left _ hb⟩
  · intro _ k l h
    simp [PacketRepo.clear, PacketRepo.empty] at h

/-- Witness for C8 at a concrete input: the invariant holds after pushing
`pkt1` into the empty repository, and still holds after a clear. -/
theorem c8_witness :
    (PacketRepo.empty.push pkt1).Inv ∧ ((PacketRepo.empty.push pkt1).clear).Inv :=
  ⟨(c8_inv_preserved PacketRepo.empty pkt1).2.1 (c8_inv_preserved PacketRepo.empty pkt1).1,
   (c8_inv_preserved (PacketRepo.empty.push pkt1) pkt1).2.2
     ((c8_inv_preserved PacketRepo.empty pkt1).2.1
       (c8_inv_preserved PacketRepo.empty pkt1).1)⟩

/-- C9: when the repository is non-empty but its first (resp. last) frame
carries no timestamp, first_time (resp. last_time) still returns the zero
duration: the zero default also signals a missing timestamp, not only an
empty repository. -/
theorem c9_time_default_on_missing_timestamp (r : PacketRepo) (p q : J1939Packet) :
    (r.packets.head? = some p → p.time = none → r.first_time = 0) ∧
    (r.packets.getLast? = some q → q.time = none → r.last_time = 0) := by
  constructor
  · intro h ht
    simp [PacketRepo.first_time, h, ht]
  · intro h ht
    simp [PacketRepo.last_time, h, ht]

/-- Witness for C9 at a concrete input: a repository holding exactly one
timestampless packet is non-empty yet reports zero for both bounds. -/
theorem c9_witness :
    (PacketRepo.empty.push pktNoTime).first_time = 0 ∧
    (PacketRepo.empty.push pktNoTime).last_time = 0 :=
  ⟨(c9_time_default_on_missing_timestamp (PacketRepo.empty.push pktNoTime) pktNoTime
      pktNoTime).1 rfl rfl,
   (c9_time_default_on_missing_timestamp (PacketRepo.empty.push pktNoTime) pktNoTime
      pktNoTime).2 rfl rfl⟩


/-! Rust's `slice::partition_point` is a binary search: it maintains the
half-open search interval [left, right), probes the middle element, and
narrows to the half that still brackets the partition boundary.  The fuel
argument only serves termination; `l.length + 1` is always enough since the
interval shrinks at every step.  The probed index is always in bounds in
every call the embedded code makes (the interval is always inside the
slice), so the probe is written with `getD`.  The second component of the
result counts how many times the predicate was evaluated (one probe per
loop iteration). -/
def ppAux {α : Type} [Inhabited α] (pred : α → Bool) (l : List α) :
    Nat → Nat → Nat → Nat × Nat
  | 0, left, _ => (left, 0)
  | fuel + 1, left, right =>
    if left < right then
      if pred (l.getD ((left + right) / 2) default) then
        ((ppAux pred l fuel ((left + right) / 2 + 1) right).1,
         (ppAux pred l fuel ((left + right) / 2 + 1) right).2 + 1)
      else
        ((ppAux pred l fuel left ((left + right) / 2)).1,
         (ppAux pred l fuel left ((left + right) / 2)).2 + 1)
    else (left, 0)

/-- The index returned by Rust's `slice::partition_point`. -/
def partition_point {α : Type} [Inhabited α] (pred : α → Bool) (l : List α) : Nat :=
  (ppAux pred l (l.length + 1) 0 l.length).1

/-- The number of predicate evaluations `slice::partition_point` performs. -/
def ppProbes {α : Type} [Inhabited α] (pred : α → Bool) (l : List α) : Nat :=
  (ppAux pred l (l.length + 1) 0 l.length).2

/-- The number of predicate evaluations an `Iterator::find` performs: one
per element until the first hit, all of them when there is no hit. -/
def scanProbes {α : Type} (pred : α → Bool) : List α → Nat
  | [] => 0
  | a :: t => if pred a then 1 else 1 + scanProbes pred t

/-- The list is partitioned at index k: the predicate holds strictly below k
and fails from k on. -/
def PartAt {α : Type} (pred : α → Bool) (l : List α) (k : Nat) : Prop :=
  k ≤ l.length ∧
  (∀ i, i < k → ∀ a, l.get? i = some a → pred a = true) ∧
  (∀ i, k ≤ i → i < l.length → ∀ a, l.get? i = some a → pred a = false)

theorem ppAux_bounds {α : Type} [Inhabited α] (pred : α → Bool) (l : List α) :
    ∀ fuel left right, left ≤ right →
      left ≤ (ppAux pred l fuel left right).1 ∧ (ppAux pred l fuel left right).1 ≤ right := by
  intro fuel
  induction fuel with
  | zero => intro left right h; exact ⟨Nat.le_refl _, h⟩
  | succ fuel ih =>
    intro left right h
    by_cases hlr : left < right
    · simp only [ppAux, if_pos hlr]
      by_cases hp : pred (l.getD ((left + right) / 2) default)
      · rw [if_pos hp]
        have := ih ((left + right) / 2 + 1) right (by omega)
        exact ⟨by omega, this.2⟩
      · rw [if_neg hp]
        have := ih left ((left + right) / 2) (by omega)
        exact ⟨this.1, by omega⟩
    · simp only [ppAux, if_neg hlr]
      exact ⟨Nat.le_refl _, h⟩

theorem ppAux_partAt {α : Type} [Inhabited α] (pred : α → Bool) (l : List α) (k : Nat)
    (hpart : PartAt pred l k) :
    ∀ fuel left right, left ≤ k → k ≤ right → right ≤ l.length →
      right - left ≤ fuel → (ppAux pred l fuel left right).1 = k := by
  intro fuel
  induction fuel with
  | zero =>
    intro left right h1 h2 _ h4
    simp only [ppAux]
    omega
  | succ fuel ih =>
    intro left right h1 h2 h3 h4
    by_cases hlr : left < right
    · have hmid_len : (left + right) / 2 < l.length := by omega
      have hget : l.get? ((left + right) / 2) = some (l.getD ((left + right) / 2) default) := by
        cases hg : l.get? ((left + right) / 2) with
        | none =>
          rw [List.get?_eq_none] at hg
          omega
        | some a => simp [List.getD_eq_getElem?_getD, ← List.get?_eq_getElem?, hg]
      simp only [ppAux, if_pos hlr]
      by_cases hp : pred (l.getD ((left + right) / 2) default)
      · rw [if_pos hp]
        have hmk : (left + right) / 2 < k := by
          by_contra hc
          have := hpart.2.2 ((left + right) / 2) (by omega) hmid_len _ hget
          rw [this] at hp
          exact Bool.noConfusion hp
        exact ih ((left + right) / 2 + 1) right (by omega) h2 h3 (by omega)
      · rw [if_neg hp]
        have hkm : k ≤ (left + right) / 2 := by
          by_contra hc
          have := hpart.2.1 ((left + right) / 2) (by omega) _ hget
          exact hp this
        exact ih left ((left + right) / 2) h1 hkm (by omega) (by omega)
    · simp only [ppAux, if_neg hlr]
      omega

theorem partition_point_partAt {α : Type} [Inhabited α] (pred : α → Bool) (l : List α)
    (k : Nat) (hpart : PartAt pred l k) : partition_point pred l = k :=
  ppAux_partAt pred l k hpart (l.length + 1) 0 l.length (Nat.zero_le _) hpart.1
    (Nat.le_refl _) (by omega)

theorem ppAux_mono {α : Type} [Inhabited α] (p1 p2 : α → Bool)
    (hp : ∀ a, p1 a = true → p2 a = true) (l : List α) :
    ∀ fuel left right, left ≤ right →
      (ppAux p1 l fuel left right).1 ≤ (ppAux p2 l fuel left right).1 := by
  intro fuel
  induction fuel with
  | zero => intro left right _; exact Nat.le_refl _
  | succ fuel ih =>
    intro left right h
    by_cases hlr : left < right
    · simp only [ppAux, if_pos hlr]
      by_cases h1 : p1 (l.getD ((left + right) / 2) default)
      · have h2 : p2 (l.getD ((left + right) / 2) default) = true := hp _ h1
        rw [if_pos h1, if_pos h2]
        exact ih ((left + right) / 2 + 1) right (by omega)
      · by_cases h2 : p2 (l.getD ((left + right) / 2) default)
        · rw [if_neg h1, if_pos h2]
          have hb1 := ppAux_bounds p1 l fuel left ((left + right) / 2) (by omega)
          have hb2 := ppAux_bounds p2 l fuel ((left + right) / 2 + 1) right (by omega)
          omega
        · rw [if_neg h1, if_neg h2]
          exact ih left ((left + right) / 2) (by omega)
    · simp only [ppAux, if_neg hlr]
      exact Nat.le_refl _

theorem partition_point_mono {α : Type} [Inhabited α] (p1 p2 : α → Bool)
    (hp : ∀ a, p1 a = true → p2 a = true) (l : List α) :
    partition_point p1 l ≤ partition_point p2 l :=
  ppAux_mono p1 p2 hp l (l.length + 1) 0 l.length (Nat.zero_le _)

/-- Left-recursive equivalent of `iter().rev().find(pred)`: the last element
satisfying the predicate. -/
def findLast {α : Type} (pred : α → Bool) : List α → Option α
  | [] => none
  | a :: t =>
    match findLast pred t with
    | some q => some q
    | none => if pred a then some a else none

theorem find?_append_or {α : Type} (pred : α → Bool) (l1 l2 : List α) :
    (l1 ++ l2).find? pred =
      match l1.find? pred with
      | some a => some a
      | none => l2.find? pred := by
  induction l1 with
  | nil => simp
  | cons a t ih =>
    by_cases h : pred a
    · simp [List.find?, h]
    · simp only [List.cons_append, List.find?, Bool.of_not_eq_true h]
      exact ih


theorem reverse_find?_eq_findLast {α : Type} (pred : α → Bool) (l : List α) :
    l.reverse.find? pred = findLast pred l := by
  induction l with
  | nil => rfl
  | cons a t ih =>
    rw [List.reverse_cons, find?_append_or, ih]
    simp only [findLast]
    cases findLast pred t with
    | none => by_cases h : pred a <;> simp [List.find?, h]
    | some q => rfl

theorem findLast_eq_none {α : Type} (pred : α → Bool) (l : List α) :
    findLast pred l = none ↔ ∀ a ∈ l, pred a = false := by
  induction l with
  | nil => simp [findLast]
  | cons a t ih =>
    simp only [findLast, List.mem_cons]
    cases h : findLast pred t with
    | some q =>
      simp only []
      constructor
      · intro hc; exact Option.noConfusion hc
      · intro hall
        have hn : findLast pred t = none := ih.2 fun x hx => hall x (Or.inr hx)
        rw [hn] at h
        exact Option.noConfusion h
    | none =>
      by_cases hp : pred a
      · simp only [if_pos hp]
        constructor
        · intro hc; exact Option.noConfusion hc
        · intro hall
          rw [hall a (Or.inl rfl)] at hp
          exact Bool.noConfusion hp
      · simp only [if_neg hp]
        constructor
        · intro _ x hx
          rcases hx with rfl | hx
          · exact Bool.of_not_eq_true hp
          · exact (ih.1 h) x hx
        · intro _; trivial

theorem findLast_eq_some {α : Type} (pred : α → Bool) (l : List α) (p : α) :
    findLast pred l = some p ↔
      ∃ l1 l2, l = l1 ++ p :: l2 ∧ pred p = true ∧ ∀ q ∈ l2, pred q = false := by
  induction l with
  | nil =>
    simp only [findLast]
    constructor
    · intro hc; exact Option.noConfusion hc
    · rintro ⟨l1, l2, habs, -, -⟩
      exact absurd habs.symm (List.append_ne_nil_of_right_ne_nil _ (List.cons_ne_nil _ _))
  | cons a t ih =>
    simp only [findLast]
    cases h : findLast pred t with
    | some q =>
      simp only []
      constructor
      · intro hq
        cases hq
        rcases ih.1 h with ⟨l1, l2, hdec, hp, hl2⟩
        exact ⟨a :: l1, l2, by rw [hdec]; rfl, hp, hl2⟩
      · rintro ⟨l1, l2, hdec, hp, hl2⟩
        cases l1 with
        | nil =>
          cases hdec
          have hn : findLast pred t = none := (findLast_eq_none pred t).2 hl2
          rw [hn] at h
          exact Option.noConfusion h
        | cons b l1 =>
          cases hdec
          have hs := ih.2 ⟨l1, l2, rfl, hp, hl2⟩
          rw [hs] at h
          cases h
          rfl
    | none =>
      by_cases hp : pred a
      · simp only [if_pos hp]
        constructor
        · intro hq
          cases hq
          exact ⟨[], t, rfl, hp, (findLast_eq_none pred t).1 h⟩
        · rintro ⟨l1, l2, hdec, hpp, hl2⟩
          cases l1 with
          | nil => cases hdec; rfl
          | cons b l1 =>
            cases hdec
            have hs := ih.2 ⟨l1, l2, rfl, hpp, hl2⟩
            rw [hs] at h
            exact Option.noConfusion h
      · simp only [if_neg hp]
        constructor
        · intro hc; exact Option.noConfusion hc
        · rintro ⟨l1, l2, hdec, hpp, hl2⟩
          cases l1 with
          | nil =>
            cases hdec
            exact absurd hpp hp
          | cons b l1 =>
            cases hdec
            have hs := ih.2 ⟨l1, l2, rfl, hpp, hl2⟩
            rw [hs] at h
            exact Option.noConfusion h

/-- A packet group in arrival order with non-decreasing timestamps, the
chronological invariant the spec assumes of every per-identifier group. -/
def Chronological (l : List J1939Packet) : Prop :=
  l.Sorted fun a b => tsOf a ≤ tsOf b

theorem partAt_of_append {α : Type} (pred : α → Bool) (A B : List α)
    (hA : ∀ a ∈ A, pred a = true) (hB : ∀ b ∈ B, pred b = false) :
    PartAt pred (A ++ B) A.length := by
  refine ⟨by simp, ?_, ?_⟩
  · intro i hi a hget
    rw [List.get?_append hi] at hget
    exact hA a (List.get?_mem hget)
  · intro i hle _ a hget
    rw [List.get?_append_right hle] at hget
    exact hB a (List.get?_mem hget)

/-- A chronological list splits into the part before s, the part inside
[s, e), and the part from e on. -/
theorem chron_decomp (s e : Nat) (hse : s ≤ e) (l : List J1939Packet)
    (hl : Chronological l) :
    ∃ A B C, l = A ++ B ++ C ∧ (∀ a ∈ A, tsOf a < s) ∧
      (∀ b ∈ B, s ≤ tsOf b ∧ tsOf b < e) ∧ (∀ c ∈ C, e ≤ tsOf c) := by
  induction l with
  | nil => exact ⟨[], [], [], rfl, by simp, by simp, by simp⟩
  | cons a t ih =>
    have hrel := (List.sorted_cons.1 hl).1
    have ht := (List.sorted_cons.1 hl).2
    rcases ih ht with ⟨A, B, C, hdec, hA, hB, hC⟩
    by_cases h1 : tsOf a < s
    · refine ⟨a :: A, B, C, by rw [hdec]; rfl, ?_, hB, hC⟩
      intro x hx
      rcases List.mem_cons.1 hx with rfl | hx
      · exact h1
      · exact hA x hx
    · by_cases h2 : tsOf a < e
      · have hAnil : A = [] := by
          cases hcA : A with
          | nil => rfl
          | cons x A' =>
            have hx : x ∈ t := by
              rw [hdec, hcA]
              exact List.mem_append_left _ (List.mem_append_left _ (List.mem_cons_self _ _))
            have h3 := hrel x hx
            have h4 := hA x (by rw [hcA]; exact List.mem_cons_self _ _)
            omega
        refine ⟨[], a :: B, C, by rw [hdec, hAnil]; rfl, by simp, ?_, hC⟩
        intro x hx
        rcases List.mem_cons.1 hx with rfl | hx
        · omega
        · exact hB x hx
      · have hAnil : A = [] := by
          cases hcA : A with
          | nil => rfl
          | cons x A' =>
            have hx : x ∈ t := by
              rw [hdec, hcA]
              exact List.mem_append_left _ (List.mem_append_left _ (List.mem_cons_self _ _))
            have h3 := hrel x hx
            have h4 := hA x (by rw [hcA]; exact List.mem_cons_self _ _)
            omega
        have hBnil : B = [] := by
          cases hcB : B with
          | nil => rfl
          | cons x B' =>
            have hx : x ∈ t := by
              rw [hdec, hcB]
              exact List.mem_append_left _
                (List.mem_append_right _ (List.mem_cons_self _ _))
            have h3 := hrel x hx
            have h4 := (hB x (by rw [hcB]; exact List.mem_cons_self _ _)).2
            omega
        refine ⟨[], [], a :: C, by rw [hdec, hAnil, hBnil]; rfl, by simp, by simp, ?_⟩
        intro x hx
        rcases List.mem_cons.1 hx with rfl | hx
        · omega
        · exact hC x hx

/-! The DBC table model (dbc_table.rs).  Schema types come from the external
canparse crate; only the fields this repository reads are modelled. -/

/-- Signal definition fields read by dbc_table.rs (canparse SpnDefinition):
name, numeric id, description and unit text.  The bit-layout fields only
feed the opaque decoder and are not modelled. -/
structure SpnDefinition where
  name : String
  spnId : Nat
  description : String
  units : String
deriving DecidableEq, Repr

/-- Message definition fields read by dbc_table.rs (canparse PgnDefinition):
the raw 32-bit id and the owned signal definitions, in discovery order. -/
structure PgnDefinition where
  id : Nat
  spns : List SpnDefinition
deriving DecidableEq, Repr

/-- Modelled from the spec: the source-address byte of a message id
(canparse's PgnDefinition::sa is external code): source_address = id & 0xFF. -/
def PgnDefinition.sa (p : PgnDefinition) : Nat := p.id &&& 0xFF

/-- Modelled from the spec: the message number packed in the id per the bus
protocol's packing rules (canparse's PgnDefinition::pgn is external code):
the 18 bits above the source-address byte. -/
def PgnDefinition.pgn (p : PgnDefinition) : Nat := (p.id >>> 8) &&& 0x3FFFF

/-- One table row: a (signal, message) schema pair (dbc_table.rs lines
244-268).  The Rust Eq/Hash instances compare the schema contents, which is
structural equality here. -/
structure Row where
  spn : SpnDefinition
  pgn : PgnDefinition
deriving DecidableEq, Repr

/-- Row::decode (dbc_table.rs lines 249-255):
`spn.parse_message(packet.payload)`.  The decoder itself is canparse library
code, threaded through as the opaque function `dec`; `Int` stands for the
numeric result domain. -/
def Row.decode (dec : SpnDefinition → List Nat → Option Int) (r : Row)
    (p : J1939Packet) : Option Int :=
  dec r.spn p.payload

/-- calc_rows (dbc_table.rs lines 120-129): the cross product of messages
and their signals, in schema order. -/
def calc_rows (pgns : List PgnDefinition) : List Row :=
  pgns.bind fun p => p.spns.map fun s => { spn := s, pgn := p }

/-- The DBC table model (dbc_table.rs lines 17-29).  The Arc/RwLock wrapper
around the repository is ownership plumbing with no algorithmic content and
is dropped; `time` is the query cursor (packet time) and `line_length` the
chart window length. -/
structure DbcModel where
  pgns : List PgnDefinition
  packets : PacketRepo
  rows : List Row
  time : Nat
  line_length : Nat

/-- DbcModel::new (dbc_table.rs lines 31-41): rows are the full cross
product, cursor is live (Duration::MAX), line length is 10 seconds. -/
def DbcModel.new (pgns : List PgnDefinition) (packets : PacketRepo) : DbcModel :=
  { pgns := pgns, packets := packets, rows := calc_rows pgns,
    time := durationMAX, line_length := 10000000000 }

/-- DbcModel::set_time (dbc_table.rs lines 42-44). -/
def DbcModel.set_time (m : DbcModel) (t : Nat) : DbcModel := { m with time := t }

/-- DbcModel::last_packet (dbc_table.rs lines 81-89): in the group of the
given id, the last packet whose effective time is at most the cursor, found
by a reverse linear scan (`iter().rev().find(..)`; the into-Packet
conversion is the identity here). -/
def DbcModel.last_packet (m : DbcModel) (id : Nat) : Option J1939Packet :=
  (m.packets.get_for id).bind fun v =>
    v.reverse.find? fun p => tsOf p ≤ m.time

/-- Rendering of a decoded value with its unit, abstracting Rust's
`format!("{:0.3} {}", value, units)` (dbc_table.rs line 70); the claims
verified here never inspect the text, only whether this branch is taken. -/
def formatValue (v : Int) (units : String) : String :=
  toString v ++ " " ++ units

/-- Rendering of a raw packet, abstracting the external can_adapter Display
implementation used at dbc_table.rs line 78. -/
def packetToString (p : J1939Packet) : String :=
  toString p.id ++ ":" ++ toString p.payload

/-- DbcModel::spn_value (dbc_table.rs lines 64-73). -/
def DbcModel.spn_value (dec : SpnDefinition → List Nat → Option Int)
    (m : DbcModel) (row : Row) : String :=
  match m.last_packet (normId row.pgn.id) with
  | none => "no packet"
  | some packet =>
    match row.decode dec packet with
    | none => "unable to parse"
    | some value => formatValue value row.spn.units

/-- DbcModel::packet_string (dbc_table.rs lines 75-79). -/
def DbcModel.packet_string (m : DbcModel) (pgn : PgnDefinition) : String :=
  match m.last_packet (normId pgn.id) with
  | none => "no packet"
  | some p => packetToString p

/-- DbcModel::map_address (dbc_table.rs lines 90-105): rewrite the low byte
of every schema id whose low byte equals `fromAddr`.  Note it rebuilds
`pgns` only; `rows` and `packets` are untouched. -/
def DbcModel.map_address (m : DbcModel) (fromAddr toAddr : Nat) : DbcModel :=
  { m with pgns := m.pgns.map fun pgn_def =>
      if 0xFF &&& pgn_def.id = fromAddr then
        { pgn_def with id := (0xFFFFFF00 &&& pgn_def.id) ||| toAddr }
      else pgn_def }

/-- Rust `row as usize` on a 64-bit target: two's-complement
reinterpretation of the i32 row index. -/
def usizeOfI32 (i : Int) : Nat := (i % (2 ^ 64 : Int)).toNat

/-- SimpleModel::row_count for DbcModel (dbc_table.rs lines 142-144). -/
def DbcModel.row_count (m : DbcModel) : Nat := m.rows.length

/-- SimpleModel::cell for DbcModel (dbc_table.rs lines 168-181).  The
`expect("Unknown row requested")` panic is the `error` case.  Column text
rendering for the hex columns is abstracted to a plain rendering of the
same number, which preserves definedness and the panic structure. -/
def DbcModel.cell (dec : SpnDefinition → List Nat → Option Int)
    (m : DbcModel) (row col : Int) : Except String (Option String) :=
  match m.rows.get? (usizeOfI32 row) with
  | none => Except.error "Unknown row requested"
  | some r =>
    Except.ok (
      if col = 0 then some (toString r.pgn.id)
      else if col = 1 then some (toString r.pgn.pgn)
      else if col = 2 then some (toString r.pgn.sa)
      else if col = 3 then some r.spn.name
      else if col = 4 then some (m.spn_value dec r)
      else if col = 6 then some (m.packet_string r.pgn)
      else if col = 7 then some r.spn.description
      else none)

/-- SimpleModel::cell_delegate for DbcModel (dbc_table.rs lines 183-213),
returning the data list handed to SparkLine::new.  Columns other than 5
return none before any row lookup.  The row lookup panic and the slice
panic (`packets[start_index..end_index]` with start > end) are `error`;
the latter is proved unreachable below. -/
def DbcModel.cell_delegate (dec : SpnDefinition → List Nat → Option Int)
    (m : DbcModel) (row col : Int) : Except String (Option (List Int)) :=
  if col = 5 then
    match m.rows.get? (usizeOfI32 row) with
    | none => Except.error "Unknown row requested"
    | some r =>
      match m.packets.get_for (normId r.pgn.id) with
      | none => Except.ok none
      | some packets =>
        if packets.isEmpty then Except.ok none
        else
          let e := min m.packets.last_time m.time
          let s := if e > m.line_length then e - m.line_length else 0
          let start_index := partition_point (fun p => tsOf p < s) packets
          let end_index := partition_point (fun p => tsOf p < e) packets
          if start_index ≤ end_index then
            Except.ok (some
              (((packets.drop start_index).take (end_index - start_index)).filterMap
                fun p => r.decode dec p))
          else Except.error "slice start after end"
  else Except.ok none

/-- The sort direction from the simple_table crate. -/
inductive Order where
  | ascending
  | descending
  | none
deriving DecidableEq, Repr

/-- sort_with (dbc_table.rs lines 237-242): Rust computes the key of every
row once into a HashMap and runs the standard library's documented-stable
slice sort comparing the looked-up keys; for the pure key functions used
here that is exactly a stable sort by the key, modelled with a stable
insertion sort. -/
def sort_with {K : Type} [LinearOrder K] (the_rows : List Row) (key : Row → K) :
    List Row :=
  @List.insertionSort Row (fun a b => key a ≤ key b)
    (fun a b => inferInstanceAs (Decidable (key a ≤ key b))) the_rows

/-- SimpleModel::sort for DbcModel (dbc_table.rs lines 215-234): early
return on Order::None, per-column key selection (panic on column > 7), then
a reverse for Order::Descending. -/
def DbcModel.sort (dec : SpnDefinition → List Nat → Option Int)
    (m : DbcModel) (column : Nat) (order : Order) : Except String DbcModel :=
  match order with
  | Order.none => Except.ok m
  | _ =>
    match
      (match column with
       | 0 => Except.ok (sort_with m.rows fun r => r.pgn.id)
       | 1 => Except.ok (sort_with m.rows fun r => r.pgn.pgn)
       | 2 => Except.ok (sort_with m.rows fun r => r.pgn.sa)
       | 3 => Except.ok (sort_with m.rows fun r => r.spn.name)
       | 4 => Except.ok (sort_with m.rows fun r => m.spn_value dec r)
       | 5 => Except.ok (sort_with m.rows fun r => m.spn_value dec r)
       | 6 => Except.ok (sort_with m.rows fun r => m.packet_string r.pgn)
       | 7 => Except.ok (sort_with m.rows fun r => r.spn.description)
       | _ => (Except.error "unknown column" : Except String (List Row))) with
    | Except.error e => Except.error e
    | Except.ok newRows =>
      match order with
      | Order.descending => Except.ok { m with rows := newRows.reverse }
      | _ => Except.ok { m with rows := newRows }

theorem last_packet_eq_findLast (m : DbcModel) (id : Nat)
    (v : List J1939Packet) (hv : m.packets.get_for id = some v) :
    m.last_packet id = findLast (fun p => tsOf p ≤ m.time) v := by
  rw [DbcModel.last_packet, hv]
  show v.reverse.find? _ = _
  exact reverse_find?_eq_findLast _ v

/-- C1: last_packet returns the highest-index frame of the id's group whose
effective timestamp is at most the cursor: none when the id was never seen;
in a seen group, none exactly when no frame is admissible; some p exactly
when p is admissible and every frame stored after p is not; and with the
live cursor (Duration::MAX, under the Rust type invariant that all
timestamps are at most Duration::MAX) it is the last element of the
group. -/
theorem c1_last_packet_highest_admissible (m : DbcModel) (id : Nat) :
    (m.packets.get_for id = none → m.last_packet id = none) ∧
    (∀ v, m.packets.get_for id = some v →
      ((m.last_packet id = none ↔ ∀ p ∈ v, ¬ tsOf p ≤ m.time) ∧
       (∀ p, m.last_packet id = some p ↔
         ∃ l1 l2, v = l1 ++ p :: l2 ∧ tsOf p ≤ m.time ∧
           ∀ q ∈ l2, ¬ tsOf q ≤ m.time) ∧
       (m.time = durationMAX → (∀ p ∈ v, tsOf p ≤ durationMAX) →
         m.last_packet id = v.getLast?))) := by
  constructor
  · intro h
    rw [DbcModel.last_packet, h]
    rfl
  · intro v hv
    have hlp := last_packet_eq_findLast m id v hv
    refine ⟨?_, ?_, ?_⟩
    · rw [hlp, findLast_eq_none]
      constructor
      · intro h p hp
        have := h p hp
        simpa using this
      · intro h p hp
        simpa using h p hp
    · intro p
      rw [hlp, findLast_eq_some]
      constructor
      · rintro ⟨l1, l2, hdec, hp, hl2⟩
        refine ⟨l1, l2, hdec, by simpa using hp, fun q hq => by simpa using hl2 q hq⟩
      · rintro ⟨l1, l2, hdec, hp, hl2⟩
        exact ⟨l1, l2, hdec, by simpa using hp, fun q hq => by simpa using hl2 q hq⟩
    · intro htime hall
      by_cases hne : v = []
      · subst hne
        rw [hlp]
        rfl
      · rw [hlp, List.getLast?_eq_getLast_of_ne_nil hne]
        apply (findLast_eq_some _ _ _).2
        refine ⟨v.dropLast, [], (List.dropLast_append_getLast hne).symm, ?_, by simp⟩
        simp only [decide_eq_true_eq]
        rw [htime]
        exact hall _ (List.getLast_mem hne)

/-- Second sample packet, two seconds in, same identifier as `pkt1`. -/
def pkt2 : J1939Packet := ⟨0x18FEF100, some 2000000000, [1, 2, 3, 4, 5, 6, 7, 8]⟩

/-- A concrete model whose repository holds `pkt1` then `pkt2` and whose
cursor is live. -/
def mW1 : DbcModel :=
  DbcModel.new [] ((PacketRepo.empty.push pkt1).push pkt2)

/-- Witness for C1 at a concrete input: with the live cursor, the last
packet of the group is its final element. -/
theorem c1_witness : mW1.last_packet (normId pkt1.id) = some pkt2 := by
  have h := (c1_last_packet_highest_admissible mW1 (normId pkt1.id)).2
    [pkt1, pkt2] (by decide)
  exact (h.2.2 rfl (by decide)).trans rfl

/-- The partition-point reference implementation of the latest-as-of lookup
that the spec describes: binary-search the partition index of
`timestamp <= cursor` over the chronological slice and take the element
just before it (this is the replacement the FIXME at dbc_table.rs line 83
asks for). -/
def last_packet_ref (time : Nat) (v : List J1939Packet) : Option J1939Packet :=
  if partition_point (fun p => tsOf p ≤ time) v = 0 then none
  else v.get? (partition_point (fun p => tsOf p ≤ time) v - 1)

/-- C7 (amended): over every chronologically ordered group, the linear
reverse scan that last_packet actually performs returns exactly what the
partition-point reference implementation returns. -/
theorem c7_scan_equiv_partition_point (m : DbcModel) (id : Nat)
    (v : List J1939Packet) (hv : m.packets.get_for id = some v)
    (hs : Chronological v) :
    m.last_packet id = last_packet_ref m.time v := by
  rcases chron_decomp (m.time + 1) (m.time + 1) (Nat.le_refl _) v hs with
    ⟨A, B, C, hdec, hA, hB, hC⟩
  have hBnil : B = [] := by
    cases hcB : B with
    | nil => rfl
    | cons x B' =>
      have := hB x (by rw [hcB]; exact List.mem_cons_self _ _)
      omega
  rw [hBnil] at hdec
  simp only [List.append_nil] at hdec
  have hAt : ∀ a ∈ A, (fun p => decide (tsOf p ≤ m.time)) a = true := by
    intro a ha
    have := hA a ha
    simp only [decide_eq_true_eq]
    omega
  have hCf : ∀ c ∈ C, (fun p => decide (tsOf p ≤ m.time)) c = false := by
    intro c hc
    have := hC c hc
    simp only [decide_eq_false_iff_not]
    omega
  have hpp : partition_point (fun p => tsOf p ≤ m.time) v = A.length := by
    rw [hdec]
    exact partition_point_partAt _ _ _ (partAt_of_append _ A C hAt hCf)
  have hlp := last_packet_eq_findLast m id v hv
  by_cases hAnil : A = []
  · have hnone : findLast (fun p => tsOf p ≤ m.time) v = none := by
      apply (findLast_eq_none _ _).2
      intro a ha
      apply hCf
      rw [hdec, hAnil] at ha
      simpa using ha
    rw [hlp, hnone, last_packet_ref, hpp, hAnil]
    simp
  · have hlen : 0 < A.length := List.length_pos.2 hAnil
    have hsome : findLast (fun p => tsOf p ≤ m.time) v = some (A.getLast hAnil) := by
      apply (findLast_eq_some _ _ _).2
      refine ⟨A.dropLast, C, ?_, hAt _ (List.getLast_mem hAnil), hCf⟩
      rw [hdec]
      conv =>
        lhs
        rw [← List.dropLast_append_getLast hAnil]
      rw [List.append_assoc]
      rfl
    rw [hlp, hsome, last_packet_ref, hpp, if_neg (by omega)]
    rw [hdec]
    have hlt : A.length - 1 < A.length := by omega
    rw [List.get?_append hlt, List.get?_eq_get hlt]
    congr 1
    exact List.getLast_eq_get A hAnil

/-- Witness for C7's amended equivalence at a concrete input: on the
two-packet chronological group of `mW1`, scan and reference agree and both
return the final packet. -/
theorem c7_witness :
    mW1.last_packet (normId pkt1.id) = last_packet_ref mW1.time [pkt1, pkt2] ∧
    last_packet_ref mW1.time [pkt1, pkt2] = some pkt2 := by
  constructor
  · exact c7_scan_equiv_partition_point mW1 (normId pkt1.id) [pkt1, pkt2]
      (by decide) (by unfold Chronological; decide)
  · decide

/-- A packet with timestamp one second, for the probe-count counterexample. -/
def pktT : J1939Packet := ⟨256, some 1000000000, []⟩

/-- A chronological group of sixteen identical-timestamp packets. -/
def g16 : List J1939Packet := List.replicate 16 pktT

/-- Counterexample for C7 as stated: the lookup in last_packet is the linear
reverse scan `iter().rev().find(..)` (dbc_table.rs lines 84-86, with a FIXME
at line 83 asking for it to become a partition), not a binary search.  On
this chronological 16-element group with a cursor below every timestamp the
scan evaluates the predicate 16 times, once per element, while the
partition-point reference that the claim says is implemented evaluates it
only 5 times. -/
theorem c7_counterexample :
    Chronological g16 ∧
    scanProbes (fun p => tsOf p ≤ 0) g16.reverse = 16 ∧
    ppProbes (fun p => tsOf p ≤ 0) g16 = 5 := by
  refine ⟨by unfold Chronological; decide, by decide, by decide⟩

/-- The windowed chart series exactly as claim C2 states it: the decoded
values of the group's frames whose timestamp lies in the closed interval
[max(0, cursor - window), min(cursor, lastTime())], an empty sequence when
no frame is in range, decode failures skipped. -/
def windowedClaim (dec : SpnDefinition → List Nat → Option Int)
    (m : DbcModel) (r : Row) : List Int :=
  match m.packets.get_for (normId r.pgn.id) with
  | none => []
  | some packets =>
    (packets.filter fun p =>
        decide (m.time - m.line_length ≤ tsOf p ∧
          tsOf p ≤ min m.time m.packets.last_time)).filterMap
      (r.decode dec)

/-- The windowed chart series the code actually produces: none (no chart)
when the group is absent or empty; otherwise the decoded values of the
frames whose timestamp lies in the half-open interval [s, e) with
e = min(lastTime(), cursor) and s = max(0, e - window), decode failures
skipped. -/
def windowedAmended (dec : SpnDefinition → List Nat → Option Int)
    (m : DbcModel) (r : Row) : Option (List Int) :=
  match m.packets.get_for (normId r.pgn.id) with
  | none => none
  | some packets =>
    if packets.isEmpty then none
    else
      some ((packets.filter fun p =>
          decide ((if min m.packets.last_time m.time > m.line_length then
              min m.packets.last_time m.time - m.line_length else 0) ≤ tsOf p ∧
            tsOf p < min m.packets.last_time m.time)).filterMap
        (r.decode dec))

/-- C2 (amended): on every chronologically ordered group, the chart cell
delegate returns exactly the `windowedAmended` series for its row: no chart
when the group is absent or empty, otherwise the decoded values over the
half-open window [max(0, e - window), e) with e = min(lastTime(), cursor),
decode failures skipped.  In particular the two partition points never
cross, so the slice panic branch is unreachable. -/
theorem c2_cell_delegate_windowed (dec : SpnDefinition → List Nat → Option Int)
    (m : DbcModel) (row : Int) (r : Row)
    (hrow : m.rows.get? (usizeOfI32 row) = some r)
    (hchron : ∀ v, m.packets.get_for (normId r.pgn.id) = some v → Chronological v) :
    DbcModel.cell_delegate dec m row 5 = Except.ok (windowedAmended dec m r) := by
  unfold DbcModel.cell_delegate windowedAmended
  rw [if_pos rfl, hrow]
  dsimp only
  cases hpk : m.packets.get_for (normId r.pgn.id) with
  | none => rfl
  | some packets =>
    dsimp only
    by_cases hemp : packets.isEmpty = true
    · rw [if_pos hemp, if_pos hemp]
    · rw [if_neg hemp, if_neg hemp]
      have hchron2 := hchron packets hpk
      have hse : (if min m.packets.last_time m.time > m.line_length then
          min m.packets.last_time m.time - m.line_length else 0)
          ≤ min m.packets.last_time m.time := by
        split <;> omega
      have hmono : partition_point (fun p => tsOf p <
            (if min m.packets.last_time m.time > m.line_length then
              min m.packets.last_time m.time - m.line_length else 0)) packets
          ≤ partition_point (fun p => tsOf p < min m.packets.last_time m.time)
            packets := by
        apply partition_point_mono
        intro a ha
        simp only [decide_eq_true_eq] at ha ⊢
        omega
      rw [if_pos hmono]
      rcases chron_decomp _ _ hse packets hchron2 with ⟨A, B, C, hdec, hA, hB, hC⟩
      have hsi : partition_point (fun p => tsOf p <
          (if min m.packets.last_time m.time > m.line_length then
            min m.packets.last_time m.time - m.line_length else 0)) packets
          = A.length := by
        rw [hdec, List.append_assoc]
        apply partition_point_partAt
        apply partAt_of_append
        · intro a ha
          simp only [decide_eq_true_eq]
          exact hA a ha
        · intro b hb
          simp only [decide_eq_false_iff_not, not_lt]
          rcases List.mem_append.1 hb with hb | hb
          · exact (hB b hb).1
          · have := hC b hb
            omega
      have hei : partition_point
          (fun p => tsOf p < min m.packets.last_time m.time) packets
          = A.length + B.length := by
        rw [hdec, show A.length + B.length = (A ++ B).length by simp]
        apply partition_point_partAt
        apply partAt_of_append
        · intro a ha
          simp only [decide_eq_true_eq]
          rcases List.mem_append.1 ha with ha | ha
          · have := hA a ha
            omega
          · exact (hB a ha).2
        · intro c hc
          simp only [decide_eq_false_iff_not, not_lt]
          exact hC c hc
      have hseg : (packets.drop A.length).take (A.length + B.length - A.length)
          = B := by
        rw [hdec, List.append_assoc, List.drop_left,
          show A.length + B.length - A.length = B.length by omega,
          List.take_left]
      have hfil : (packets.filter fun p =>
          decide ((if min m.packets.last_time m.time > m.line_length then
              min m.packets.last_time m.time - m.line_length else 0) ≤ tsOf p ∧
            tsOf p < min m.packets.last_time m.time)) = B := by
        rw [hdec, List.filter_append, List.filter_append]
        have hfA : (A.filter fun p =>
            decide ((if min m.packets.last_time m.time > m.line_length then
                min m.packets.last_time m.time - m.line_length else 0) ≤ tsOf p ∧
              tsOf p < min m.packets.last_time m.time)) = [] :=
          List.filter_eq_nil.2 fun a ha => by
            have := hA a ha
            simp only [decide_eq_true_eq, not_and, not_lt]
            omega
        have hfC : (C.filter fun p =>
            decide ((if min m.packets.last_time m.time > m.line_length then
                min m.packets.last_time m.time - m.line_length else 0) ≤ tsOf p ∧
              tsOf p < min m.packets.last_time m.time)) = [] :=
          List.filter_eq_nil.2 fun c hc => by
            have := hC c hc
            simp only [decide_eq_true_eq, not_and, not_lt]
            intro _
            omega
        have hfB : (B.filter fun p =>
            decide ((if min m.packets.last_time m.time > m.line_length then
                min m.packets.last_time m.time - m.line_length else 0) ≤ tsOf p ∧
              tsOf p < min m.packets.last_time m.time)) = B :=
          List.filter_eq_self.2 fun b hb => by
            have := hB b hb
            simp only [decide_eq_true_eq]
            exact this
        rw [hfA, hfB, hfC]
        simp
      rw [hsi, hei, hseg, hfil]

/-- A decoder stub used by concrete witnesses: every payload decodes to 42. -/
def decW : SpnDefinition → List Nat → Option Int := fun _ _ => some 42

/-- Signal schema used by concrete witnesses. -/
def spnW : SpnDefinition := ⟨"Wheel-Based Vehicle Speed", 84, "speed", "km/h"⟩

/-- Message schema used by concrete witnesses; id low byte 0x00. -/
def pgnW : PgnDefinition := ⟨0x18FEF100, [spnW]⟩

/-- Table row used by concrete witnesses. -/
def rowW : Row := ⟨spnW, pgnW⟩

/-- A packet of the witness message at five seconds. -/
def pkt5 : J1939Packet := ⟨0x18FEF100, some 5000000000, [7]⟩

/-- Concrete model: one row, one stored packet at t = 5 s, cursor at exactly
5 s, window 10 s. -/
def mW2 : DbcModel :=
  { pgns := [pgnW], packets := PacketRepo.empty.push pkt5, rows := [rowW],
    time := 5000000000, line_length := 10000000000 }

/-- Counterexample for C2 as stated: with the cursor at exactly the stored
packet's timestamp, the claim's closed interval [max(0, cursor - window),
min(cursor, lastTime())] contains the packet, so the claim demands its
decoded value [42]; the code's window is half-open at the top
(`partition_point(time < end)` at dbc_table.rs line 203), so the chart cell
returns the empty series instead. -/
theorem c2_counterexample :
    DbcModel.cell_delegate decW mW2 0 5 = Except.ok (some []) ∧
    windowedClaim decW mW2 rowW = [42] ∧
    ([] : List Int) ≠ [42] := by
  refine ⟨rfl, rfl, by decide⟩

/-- Witness for C2's amended theorem at a concrete input. -/
theorem c2_witness :
    DbcModel.cell_delegate decW mW2 0 5 = Except.ok (windowedAmended decW mW2 rowW) :=
  c2_cell_delegate_windowed decW mW2 0 rowW rfl (fun v hv => by
    have hv2 : some [pkt5] = some v := hv
    cases hv2
    unfold Chronological
    decide)

/-- C3: map_address is a pure query-time relabeling.  The stored frames are
untouched, each message schema whose id low byte equals fromAddr gets that
byte rewritten to toAddr with every other field and every other message
unchanged, and the table's rows (which map_address does not rebuild) are
untouched, so latestAsOf evaluated through the table for a remapped
message's row is still keyed by the original from-tagged identifier and
returns exactly the frame it returned before the remap. -/
theorem c3_map_address_pure_relabel (m : DbcModel) (fromAddr toAddr : Nat)
    (dec : SpnDefinition → List Nat → Option Int) (r : Row) :
    ((m.map_address fromAddr toAddr).packets = m.packets) ∧
    ((m.map_address fromAddr toAddr).rows = m.rows) ∧
    (∀ i, (m.map_address fromAddr toAddr).pgns.get? i =
      (m.pgns.get? i).map fun pd =>
        if 0xFF &&& pd.id = fromAddr then
          { pd with id := (0xFFFFFF00 &&& pd.id) ||| toAddr }
        else pd) ∧
    (∀ id, (m.map_address fromAddr toAddr).last_packet id = m.last_packet id) ∧
    (r ∈ m.rows → 0xFF &&& r.pgn.id = fromAddr →
      (m.map_address fromAddr toAddr).last_packet (normId r.pgn.id)
          = m.last_packet (normId r.pgn.id) ∧
        DbcModel.spn_value dec (m.map_address fromAddr toAddr) r
          = DbcModel.spn_value dec m r) := by
  refine ⟨rfl, rfl, ?_, fun _ => rfl, fun _ _ => ⟨rfl, rfl⟩⟩
  intro i
  exact List.get?_map _ _ _

/-- Witness for C3 at a concrete input: remapping source address 0x00 to
0xFE leaves the witness row's table lookup unchanged. -/
theorem c3_witness :
    (mW2.map_address 0 0xFE).last_packet (normId rowW.pgn.id)
        = mW2.last_packet (normId rowW.pgn.id) ∧
    DbcModel.spn_value decW (mW2.map_address 0 0xFE) rowW
        = DbcModel.spn_value decW mW2 rowW :=
  (c3_map_address_pure_relabel mW2 0 0xFE decW rowW).2.2.2.2
    (by unfold mW2; simp) (by decide)

/-! Stability of the key-based sort. -/

theorem filter_orderedInsert {K : Type} [LinearOrder K] (key : Row → K) (k : K)
    (x : Row) (l : List Row) :
    ((@List.orderedInsert Row (fun a b => key a ≤ key b)
        (fun a b => inferInstanceAs (Decidable (key a ≤ key b))) x l).filter
      fun r => decide (key r = k)) =
      if key x = k then x :: l.filter (fun r => decide (key r = k))
      else l.filter fun r => decide (key r = k) := by
  induction l with
  | nil =>
    by_cases hx : key x = k <;> simp [List.orderedInsert, List.filter_cons, hx]
  | cons b l ih =>
    simp only [List.orderedInsert]
    by_cases hle : key x ≤ key b
    · rw [if_pos hle]
      by_cases hx : key x = k <;> by_cases hbk : key b = k <;>
        simp [List.filter_cons, hx, hbk]
    · rw [if_neg hle]
      have hblt : key b < key x := lt_of_not_le hle
      by_cases hx : key x = k
      · have hbk : ¬ key b = k := by
          intro hc
          rw [hc, hx] at hblt
          exact lt_irrefl _ hblt
        simp [List.filter_cons, hx, hbk, ih]
      · by_cases hbk : key b = k <;> simp [List.filter_cons, hx, hbk, ih]

theorem filter_sort_with {K : Type} [LinearOrder K] (rows : List Row)
    (key : Row → K) (k : K) :
    ((sort_with rows key).filter fun r => decide (key r = k)) =
      rows.filter fun r => decide (key r = k) := by
  induction rows with
  | nil => rfl
  | cons x t ih =>
    show ((@List.orderedInsert Row (fun a b => key a ≤ key b) _ x
        (sort_with t key)).filter fun r => decide (key r = k)) = _
    rw [filter_orderedInsert key k x (sort_with t key)]
    by_cases hx : key x = k
    · rw [if_pos hx, ih]
      simp [List.filter_cons, hx]
    · rw [if_neg hx, ih]
      simp [List.filter_cons, hx]

theorem sort_with_sorted {K : Type} [LinearOrder K] (rows : List Row)
    (key : Row → K) :
    (sort_with rows key).Sorted fun a b => key a ≤ key b := by
  haveI : IsTotal Row fun a b => key a ≤ key b := ⟨fun a b => le_total _ _⟩
  haveI : IsTrans Row fun a b => key a ≤ key b := ⟨fun _ _ _ => le_trans⟩
  exact List.sorted_insertionSort _ rows

theorem sort_with_idem {K : Type} [LinearOrder K] (rows : List Row)
    (key : Row → K) :
    sort_with (sort_with rows key) key = sort_with rows key := by
  haveI : IsTotal Row fun a b => key a ≤ key b := ⟨fun a b => le_total _ _⟩
  haveI : IsTrans Row fun a b => key a ≤ key b := ⟨fun _ _ _ => le_trans⟩
  exact List.Sorted.insertionSort_eq (sort_with_sorted rows key)

theorem sort_asc_idem (dec : SpnDefinition → List Nat → Option Int)
    (m : DbcModel) (col : Nat) (h : col ≤ 7) :
    (DbcModel.sort dec m col Order.ascending).bind
        (fun m2 => DbcModel.sort dec m2 col Order.ascending)
      = DbcModel.sort dec m col Order.ascending := by
  interval_cases col
  · exact congrArg (fun rs => Except.ok { m with rows := rs })
      (sort_with_idem m.rows fun r => r.pgn.id)
  · exact congrArg (fun rs => Except.ok { m with rows := rs })
      (sort_with_idem m.rows fun r => r.pgn.pgn)
  · exact congrArg (fun rs => Except.ok { m with rows := rs })
      (sort_with_idem m.rows fun r => r.pgn.sa)
  · exact congrArg (fun rs => Except.ok { m with rows := rs })
      (sort_with_idem m.rows fun r => r.spn.name)
  · exact congrArg (fun rs => Except.ok { m with rows := rs })
      (sort_with_idem m.rows fun r => m.spn_value dec r)
  · exact congrArg (fun rs => Except.ok { m with rows := rs })
      (sort_with_idem m.rows fun r => m.spn_value dec r)
  · exact congrArg (fun rs => Except.ok { m with rows := rs })
      (sort_with_idem m.rows fun r => m.packet_string r.pgn)
  · exact congrArg (fun rs => Except.ok { m with rows := rs })
      (sort_with_idem m.rows fun r => r.spn.description)

/-- C4 (amended): the sort is a stable key sort with keys computed before
comparisons begin: rows with equal keys keep their prior relative order
(the key-k sublist is preserved), and sorting twice in a row by the same
column with the Ascending direction produces the identical row order, even
when the key function changed between the two sorts to one with the same
key values.  (With Descending, the code reverses the ascending result, so
tied rows come back in reversed relative order on every descending sort;
see the counterexample.) -/
theorem c4_sort_stable_ascending {K : Type} [LinearOrder K] (rows : List Row)
    (key : Row → K) (k : K) (dec : SpnDefinition → List Nat → Option Int)
    (m : DbcModel) (col : Nat) :
    ((sort_with rows key).filter fun r => decide (key r = k)) =
      (rows.filter fun r => decide (key r = k)) ∧
    (∀ key2 : Row → K, (∀ r : Row, key2 r = key r) →
      sort_with (sort_with rows key) key2 = sort_with rows key) ∧
    (col ≤ 7 →
      (DbcModel.sort dec m col Order.ascending).bind
          (fun m2 => DbcModel.sort dec m2 col Order.ascending)
        = DbcModel.sort dec m col Order.ascending) := by
  refine ⟨filter_sort_with rows key k, ?_, sort_asc_idem dec m col⟩
  intro key2 hk
  have hfun : key2 = key := funext hk
  rw [hfun]
  exact sort_with_idem rows key

/-- Signal definitions for the sort counterexample. -/
def spnA : SpnDefinition := ⟨"Engine Speed", 190, "rpm signal", "rpm"⟩

/-- Second signal of the same message. -/
def spnB : SpnDefinition := ⟨"Engine Torque", 513, "torque signal", "Nm"⟩

/-- Message owning both signals: the two rows share its id, so they tie on
the ID sort column. -/
def pgnA : PgnDefinition := ⟨0x0CF00400, [spnA, spnB]⟩

/-- First row of the tied pair. -/
def rowA : Row := ⟨spnA, pgnA⟩

/-- Second row of the tied pair. -/
def rowB : Row := ⟨spnB, pgnA⟩

/-- Concrete model with two rows that tie on the ID column. -/
def mS : DbcModel :=
  { pgns := [pgnA], packets := PacketRepo.empty, rows := [rowA, rowB],
    time := durationMAX, line_length := 0 }

/-- The row list of a sort result, for stating counterexamples without
comparing whole models. -/
def rowsOf : Except String DbcModel → Option (List Row)
  | Except.ok m => some m.rows
  | Except.error _ => none

/-- Counterexample for C4 as stated: sorting twice by column 0 (ID) with
direction Descending does not reproduce the order of sorting once.  The two
rows share the same key (same message id), the code stable-sorts ascending
and then reverses (dbc_table.rs lines 230-233), so every descending sort
reverses the relative order of tied rows. -/
theorem c4_counterexample :
    rowsOf (DbcModel.sort decW mS 0 Order.descending) = some [rowB, rowA] ∧
    rowsOf ((DbcModel.sort decW mS 0 Order.descending).bind
      fun m2 => DbcModel.sort decW m2 0 Order.descending) = some [rowA, rowB] ∧
    ([rowB, rowA] : List Row) ≠ [rowA, rowB] := by
  refine ⟨rfl, rfl, by decide⟩

/-- Witness for C4's amended theorem at a concrete input: the tied pair
keeps its order under an ascending ID sort, repeated ascending sorts agree,
and the stability filter is preserved. -/
theorem c4_witness :
    ((sort_with [rowA, rowB] fun r => r.pgn.id).filter
        fun r => decide (r.pgn.id = 0x0CF00400)) =
      ([rowA, rowB].filter fun r => decide (r.pgn.id = 0x0CF00400)) ∧
    (DbcModel.sort decW mS 0 Order.ascending).bind
        (fun m2 => DbcModel.sort decW m2 0 Order.ascending)
      = DbcModel.sort decW mS 0 Order.ascending := by
  have h := c4_sort_stable_ascending [rowA, rowB] (fun r => r.pgn.id)
    0x0CF00400 decW mS 0
  exact ⟨h.1, h.2.2 (by decide)⟩

/-- True exactly on the panic (error) outcome of a table operation. -/
def isErr {α : Type} : Except String α → Bool
  | Except.error _ => true
  | Except.ok _ => false

/-- The chart cell never hits the slice panic on an in-range row: its two
partition points cannot cross, on sorted and unsorted groups alike. -/
theorem cell_delegate_inbounds_ok (dec : SpnDefinition → List Nat → Option Int)
    (m : DbcModel) (row : Int) (r : Row)
    (hg : m.rows.get? (usizeOfI32 row) = some r) :
    isErr (DbcModel.cell_delegate dec m row 5) = false := by
  unfold DbcModel.cell_delegate
  rw [if_pos rfl, hg]
  dsimp only
  cases hpk : m.packets.get_for (normId r.pgn.id) with
  | none => rfl
  | some packets =>
    dsimp only
    by_cases hemp : packets.isEmpty = true
    · rw [if_pos hemp]
      rfl
    · rw [if_neg hemp]
      have hmono : partition_point (fun p => tsOf p <
            (if min m.packets.last_time m.time > m.line_length then
              min m.packets.last_time m.time - m.line_length else 0)) packets
          ≤ partition_point (fun p => tsOf p < min m.packets.last_time m.time)
            packets := by
        apply partition_point_mono
        intro a ha
        simp only [decide_eq_true_eq] at ha ⊢
        have : (if min m.packets.last_time m.time > m.line_length then
            min m.packets.last_time m.time - m.line_length else 0)
            ≤ min m.packets.last_time m.time := by
          split <;> omega
        omega
      rw [if_pos hmono]
      rfl

/-- C10 (amended): cell panics exactly on row indices outside 0..row_count
(whatever the column); cell_delegate never touches the row outside the
chart column (col 5), returning None without a panic, and on col 5 panics
exactly on out-of-range rows (its slice branch never panics: the two
partition points cannot cross); sort with Order::None returns before the
column check, so it never panics, while sort with any other direction
panics exactly on columns greater than 7. -/
theorem c10_panic_characterization (dec : SpnDefinition → List Nat → Option Int)
    (m : DbcModel) (row col : Int) (colN : Nat) (ord : Order) :
    (isErr (DbcModel.cell dec m row col) = true ↔
      m.rows.length ≤ usizeOfI32 row) ∧
    (col ≠ 5 → DbcModel.cell_delegate dec m row col = Except.ok none) ∧
    (col = 5 → (isErr (DbcModel.cell_delegate dec m row col) = true ↔
      m.rows.length ≤ usizeOfI32 row)) ∧
    (DbcModel.sort dec m colN Order.none = Except.ok m) ∧
    (7 < colN → ord ≠ Order.none → isErr (DbcModel.sort dec m colN ord) = true) ∧
    (colN ≤ 7 → isErr (DbcModel.sort dec m colN ord) = false) := by
  refine ⟨?_, ?_, ?_, rfl, ?_, ?_⟩
  · unfold DbcModel.cell
    cases hg : m.rows.get? (usizeOfI32 row) with
    | none =>
      simp only [isErr]
      rw [List.get?_eq_none] at hg
      simp [hg]
    | some r =>
      simp only [isErr]
      rcases List.get?_eq_some.1 hg with ⟨hlt, -⟩
      constructor
      · intro hc
        exact absurd hc (by simp)
      · intro hc
        omega
  · intro h5
    unfold DbcModel.cell_delegate
    rw [if_neg h5]
  · intro h5
    subst h5
    cases hg : m.rows.get? (usizeOfI32 row) with
    | none =>
      have herr : DbcModel.cell_delegate dec m row 5 =
          Except.error "Unknown row requested" := by
        unfold DbcModel.cell_delegate
        rw [if_pos rfl, hg]
      rw [herr]
      simp [isErr, List.get?_eq_none.1 hg]
    | some r =>
      have hok := cell_delegate_inbounds_ok dec m row r hg
      rw [hok]
      rcases List.get?_eq_some.1 hg with ⟨hlt, -⟩
      simp only [Bool.false_eq_true, false_iff]
      omega
  · intro hcol hord
    obtain ⟨k, rfl⟩ : ∃ k, colN = k + 8 := ⟨colN - 8, by omega⟩
    cases ord with
    | none => exact absurd rfl hord
    | ascending => rfl
    | descending => rfl
  · intro hcol
    interval_cases colN <;> cases ord <;> rfl

/-- Counterexample for C10 as stated: row 99 is outside 0..row_count of the
two-row model `mS`, yet cell_delegate on a non-chart column returns None
normally instead of panicking (the claim says every out-of-range row panics
in both cell and cell_delegate); and sort with column 99 (greater than 7)
and Order::None returns normally instead of panicking. -/
theorem c10_counterexample :
    mS.row_count ≤ usizeOfI32 99 ∧
    DbcModel.cell_delegate decW mS 99 0 = Except.ok none ∧
    DbcModel.sort decW mS 99 Order.none = Except.ok mS := by
  refine ⟨by decide, rfl, rfl⟩

/-- Witness for C10's amended theorem at concrete inputs: out-of-range cell
panics, in-range cell does not, out-of-range cell_delegate on a non-chart
column does not panic, sort on column 9 with a real direction panics, sort
on column 3 does not. -/
theorem c10_witness :
    isErr (DbcModel.cell decW mS 99 3) = true ∧
    isErr (DbcModel.cell decW mS 0 3) = false ∧
    DbcModel.cell_delegate decW mS 99 2 = Except.ok none ∧
    isErr (DbcModel.sort decW mS 9 Order.ascending) = true ∧
    isErr (DbcModel.sort decW mS 3 Order.descending) = false := by
  have h99 := c10_panic_characterization decW mS 99 2 9 Order.ascending
  have h0 := c10_panic_characterization decW mS 0 3 3 Order.descending
  refine ⟨?_, ?_, h99.2.1 (by decide), h99.2.2.2.2.1 (by decide) (by decide),
    h0.2.2.2.2.2 (by decide)⟩
  · exact (c10_panic_characterization decW mS 99 3 9 Order.ascending).1.mpr (by decide)
  · cases hcell : isErr (DbcModel.cell decW mS 0 3) with
    | false => rfl
    | true => exact absurd (h0.1.mp hcell) (by decide)
